import Mathlib

/-!
A shallow embedding of `nfa2dfa.py`, an epsilon-NFA to DFA subset-construction
converter, together with proofs of the specification's claims about it.

Modelling conventions:
* Python dictionaries become association lists with first-match lookup
  (`lookupA`) and in-place update / append-on-miss assignment (`setA`); the
  program never creates duplicate keys, and `lookupA`/`setA` agree with the
  dictionary semantics on any key multiset.
* A Python `set` that is only observed through membership, emptiness, and
  iteration followed by sorting (the `move` result) is modelled as its
  canonically sorted duplicate-free list; every use site in the source is
  insensitive to the unspecified iteration order of a Python set.
* The two `while` worklist loops are modelled with an explicit fuel argument
  that is proved sufficient (`closureLoopF_spec`, `toDfaLoopF_spec` show the
  worklist empties before the fuel runs out), keeping every definition
  executable by kernel reduction.
-/

/-- The distinguished epsilon pseudo-symbol (`NULL = 'E'` in the source). -/
def NULL : String := "E"

/-- First-match lookup in an association list (Python `dict` read access). -/
def lookupA {α β : Type} [DecidableEq α] : List (α × β) → α → Option β
  | [], _ => none
  | (k, v) :: rest, k' => if k = k' then some v else lookupA rest k'

/-- Assignment in an association list: replace the first binding of `k` if
present, otherwise append a new binding (Python `dict` write access). -/
def setA {α β : Type} [DecidableEq α] : List (α × β) → α → β → List (α × β)
  | [], k, v => [(k, v)]
  | (k', v') :: rest, k, v =>
    if k' = k then (k, v) :: rest else (k', v') :: setA rest k v

/-- The nested transition dictionary: state -> symbol -> destination list. -/
abbrev Transitions := List (Nat × List (String × List Nat))

/-- The automaton value type shared by the NFA and the DFA
(`FiniteAutomaton` in the source). -/
structure FiniteAutomaton where
  initial_state : Nat
  transitions : Transitions
  final_states : List Nat
  alphabet : List String
deriving DecidableEq

/-- `transitions.get(state, dict()).get(symbol, [])`: the destination list of
`(s, sym)` in a transition dictionary, defaulting to empty on missing keys. -/
def destsOf (tr : Transitions) (s : Nat) (sym : String) : List Nat :=
  (lookupA ((lookupA tr s).getD []) sym).getD []

/-- The destinations of `(state, symbol)` in an automaton's own relation. -/
def getDests (fa : FiniteAutomaton) (s : Nat) (sym : String) : List Nat :=
  destsOf fa.transitions s sym

/-- `FiniteAutomaton.move`: the set of states reachable in one `symbol` step
from any state of `states`.  The Python version accumulates a `set` and
returns `list(set(...))` in unspecified order; we return the canonical sorted
duplicate-free list of the same set. -/
def move (fa : FiniteAutomaton) (states : List Nat) (symbol : String) : List Nat :=
  List.insertionSort (· ≤ ·)
    (states.foldr (fun s acc => getDests fa s symbol ++ acc) []).dedup

/-- The trailing step of `add_transition`: make sure `e` is present as a key
of the transition dictionary, binding it to an empty row if absent. -/
def ensureKey (tr : Transitions) (e : Nat) : Transitions :=
  match lookupA tr e with
  | none => setA tr e []
  | some _ => tr

/-- `FiniteAutomaton.add_transition`: insert `e` into the destination list of
`(start, symbol)`, creating the row or the cell if absent, then make sure `e`
is present as a key of the dictionary. -/
def add_transition (tr : Transitions) (start : Nat) (symbol : String) (e : Nat) :
    Transitions :=
  ensureKey
    (match lookupA tr start with
      | none => setA tr start [(symbol, [e])]
      | some row =>
        match lookupA row symbol with
        | none => setA tr start (setA row symbol [e])
        | some dests => setA tr start (setA row symbol (dests ++ [e]))) e

/-- One step of the inner `for` loop of `null_closure`: if `t` is not yet in
the closure, append it to both the closure and the unchecked worklist. -/
def addNew (cu : List Nat × List Nat) (t : Nat) : List Nat × List Nat :=
  if t ∈ cu.1 then cu else (cu.1 ++ [t], cu.2 ++ [t])

/-- The `while unchecked:` loop of `null_closure`, with explicit fuel.  Each
iteration pops the last unchecked state (`unchecked.pop()`), computes its
epsilon-move, and appends the states not already in the closure to both
lists.  `closureLoopF_spec` proves the supplied fuel always suffices. -/
def closureLoopF (fa : FiniteAutomaton) : Nat → List Nat → List Nat → List Nat
  | 0, closure, _ => closure
  | fuel + 1, closure, unchecked =>
    if h : unchecked = [] then closure
    else
      let cu := (move fa [unchecked.getLast h] NULL).foldl addNew
        (closure, unchecked.dropLast)
      closureLoopF fa fuel cu.1 cu.2

/-- All states occurring as a destination anywhere in one row of the
transition dictionary. -/
def rowDests (row : List (String × List Nat)) : Finset Nat :=
  row.foldr (fun q acc => q.2.toFinset ∪ acc) ∅

/-- All states occurring as a destination anywhere in a transition
dictionary value. -/
def allDestsT (trs : Transitions) : Finset Nat :=
  trs.foldr (fun p acc => rowDests p.2 ∪ acc) ∅

/-- All states occurring as a destination anywhere in the automaton's
transition dictionary; every state the worklist algorithms can discover lies
here. -/
def allDests (fa : FiniteAutomaton) : Finset Nat :=
  allDestsT fa.transitions

/-- `FiniteAutomaton.null_closure`: the epsilon-closure of a state list,
returned as `sorted(closure)`.  The fuel bounds the number of loop
iterations: one per initial element plus one per discoverable state. -/
def null_closure (fa : FiniteAutomaton) (states : List Nat) : List Nat :=
  List.insertionSort (· ≤ ·)
    (closureLoopF fa (states.length + (allDests fa).card) states states)

/-- The mutable state of `to_dfa`'s worklist loop: the DFA transition
dictionary under construction, the subset-to-id dictionary `dfa_states`
(an association list keyed by the canonical sorted subset, standing for the
Python dict keyed by `tuple(subset)`), and the `unmarked` queue. -/
structure DfaBuild where
  dfa_trans : Transitions
  dfa_states : List (List Nat × Nat)
  unmarked : List (List Nat)
deriving DecidableEq

/-- The body of `to_dfa`'s `for symbol in self.alphabet:` loop, processing one
symbol for the popped subset `start` whose DFA id is `n`. -/
def processSymbol (fa : FiniteAutomaton) (n : Nat) (start : List Nat)
    (b : DfaBuild) (symbol : String) : DfaBuild :=
  let mv := move fa start symbol
  if mv = [] then b
  else
    let new_state := null_closure fa mv
    match lookupA b.dfa_states new_state with
    | none =>
      { dfa_trans := add_transition b.dfa_trans n symbol (b.dfa_states.length + 1),
        dfa_states := b.dfa_states ++ [(new_state, b.dfa_states.length + 1)],
        unmarked := b.unmarked ++ [new_state] }
    | some e => { b with dfa_trans := add_transition b.dfa_trans n symbol e }

/-- Processing one popped subset: look its id up once, then run the symbol
loop over the whole alphabet. -/
def markState (fa : FiniteAutomaton) (start : List Nat) (b : DfaBuild) : DfaBuild :=
  fa.alphabet.foldl
    (processSymbol fa ((lookupA b.dfa_states start).getD 0) start) b

/-- The `while unmarked:` loop of `to_dfa`, with explicit fuel.  Each
iteration pops the first unmarked subset (`unmarked.pop(0)`, FIFO) and marks
it.  `toDfaLoopF_spec` proves the supplied fuel always suffices. -/
def toDfaLoopF (fa : FiniteAutomaton) : Nat → DfaBuild → DfaBuild
  | 0, b => b
  | fuel + 1, b =>
    match b.unmarked with
    | [] => b
    | start :: rest => toDfaLoopF fa fuel (markState fa start { b with unmarked := rest })

/-- The state of the construction just before the `while` loop: the initial
epsilon-closure is assigned DFA id 1, recorded, and enqueued. -/
def initBuild (fa : FiniteAutomaton) : DfaBuild :=
  let i := null_closure fa [fa.initial_state]
  { dfa_trans := [], dfa_states := [(i, 1)], unmarked := [i] }

/-- The state of the construction after the worklist loop has emptied.  The
fuel covers the single initially enqueued subset plus one iteration per
possible canonical subset of destination states. -/
def finalBuild (fa : FiniteAutomaton) : DfaBuild :=
  toDfaLoopF fa (1 + 2 ^ (allDests fa).card) (initBuild fa)

/-- `FiniteAutomaton.to_dfa`: run the subset construction and assemble the
resulting DFA.  Its final states are the ids of the discovered subsets whose
intersection with the NFA's final-state set is nonempty. -/
def to_dfa (fa : FiniteAutomaton) : FiniteAutomaton :=
  let b := finalBuild fa
  { initial_state := 1,
    transitions := b.dfa_trans,
    final_states :=
      (b.dfa_states.filter
        (fun p => p.1.any (fun x => decide (x ∈ fa.final_states)))).map Prod.snd,
    alphabet := fa.alphabet }

/-- A transition-closed state set: following any epsilon edge from a member
stays inside the set. -/
def EpsClosed (fa : FiniteAutomaton) (T : Finset Nat) : Prop :=
  ∀ x ∈ T, ∀ y ∈ getDests fa x NULL, y ∈ T

/-- `C` is the epsilon-closure of `S`: the smallest epsilon-closed superset
of `S`. -/
def IsEpsClosureOf (fa : FiniteAutomaton) (S C : Finset Nat) : Prop :=
  S ⊆ C ∧ EpsClosed fa C ∧ ∀ T : Finset Nat, S ⊆ T → EpsClosed fa T → C ⊆ T

/-- The canonical keys the worklist loop of `to_dfa` can ever add to
`dfa_states`: sorted duplicate-free lists of destination states. -/
def keyUniverse (fa : FiniteAutomaton) : Finset (List Nat) :=
  (allDests fa).powerset.image (Finset.sort (· ≤ ·))

/-- The state set of a well-formed NFA: the keys of its transition
dictionary. -/
def nfaStates (fa : FiniteAutomaton) : Finset Nat :=
  (fa.transitions.map Prod.fst).toFinset

/-- Well-formedness of the input NFA, as required by the data-model
invariants: the initial state is a key of the transition dictionary, and so
is every state reachable as a transition destination. -/
def WellFormed (fa : FiniteAutomaton) : Prop :=
  fa.initial_state ∈ nfaStates fa ∧ allDests fa ⊆ nfaStates fa

/-- The structural invariant of the subset-construction loop state: the
subset keys are distinct canonical (sorted, duplicate-free) lists, the
assigned ids are exactly `1..N` in discovery order, and the unmarked queue
holds distinct, already-recorded subsets. -/
def InvD (b : DfaBuild) : Prop :=
  (b.dfa_states.map Prod.fst).Nodup ∧
  b.dfa_states.map Prod.snd = List.range' 1 b.dfa_states.length ∧
  (∀ p ∈ b.dfa_states, p.1.Sorted (· ≤ ·) ∧ p.1.Nodup) ∧
  b.unmarked.Nodup ∧
  (∀ st ∈ b.unmarked, ∃ m, lookupA b.dfa_states st = some m)

/-- The transition-table invariant of the loop state: every cell holds at
most one destination, every key of the growing DFA dictionary is an
already-assigned id, and ids whose subsets are still unmarked have no
outgoing transitions yet. -/
def TrInv (b : DfaBuild) : Prop :=
  (∀ s sym, (destsOf b.dfa_trans s sym).length ≤ 1) ∧
  (∀ k ∈ b.dfa_trans.map Prod.fst, k ≤ b.dfa_states.length) ∧
  (∀ st ∈ b.unmarked, ∀ m, lookupA b.dfa_states st = some m →
    ∀ sym, destsOf b.dfa_trans m sym = [])

/-- The example NFA of the specification's end-to-end scenario: states
`{0,1,2}`, initial `0`, final `{2}`, alphabet `{a}`, an epsilon edge `0 -> 1`
and an `a` edge `1 -> 2`. -/
def exFa : FiniteAutomaton :=
  { initial_state := 0,
    transitions := [(0, [("E", [1])]), (1, [("a", [2])]), (2, [])],
    final_states := [2],
    alphabet := ["a"] }

/-- A degenerate automaton with an empty transition dictionary, used to
exhibit the behaviour of `null_closure` on duplicated input. -/
def exFa0 : FiniteAutomaton :=
  { initial_state := 0, transitions := [], final_states := [], alphabet := [] }

/-- An automaton with an empty alphabet but a nontrivial epsilon edge and a
final state, exercising the empty-alphabet edge case of `to_dfa`. -/
def exFaE : FiniteAutomaton :=
  { initial_state := 0,
    transitions := [(0, [("E", [1])]), (1, [])],
    final_states := [1],
    alphabet := [] }

/-! ### Association-list lemmas -/

theorem lookupA_eq_none {α β : Type} [DecidableEq α] (l : List (α × β)) (k : α) :
    lookupA l k = none ↔ k ∉ l.map Prod.fst := by
  induction l with
  | nil => simp [lookupA]
  | cons p rest ih =>
    obtain ⟨k', v'⟩ := p
    by_cases h : k' = k
    · subst h; simp [lookupA]
    · rw [List.map_cons]
      simp only [lookupA, if_neg h]
      rw [ih]
      constructor
      · intro hk hm
        rcases List.mem_cons.1 hm with he | hm'
        · exact h he.symm
        · exact hk hm'
      · intro hk hm
        exact hk (List.mem_cons_of_mem _ hm)

theorem lookupA_mem {α β : Type} [DecidableEq α] {l : List (α × β)} {k : α} {v : β}
    (h : lookupA l k = some v) : (k, v) ∈ l := by
  induction l with
  | nil => simp [lookupA] at h
  | cons p rest ih =>
    obtain ⟨k', v'⟩ := p
    simp only [lookupA] at h
    by_cases hk : k' = k
    · rw [if_pos hk] at h
      injection h with hv
      subst hk
      subst hv
      exact List.mem_cons_self _ _
    · rw [if_neg hk] at h
      exact List.mem_cons_of_mem _ (ih h)

theorem lookupA_append_some {α β : Type} [DecidableEq α] {l₁ : List (α × β)}
    (l₂ : List (α × β)) {k : α} {v : β} (h : lookupA l₁ k = some v) :
    lookupA (l₁ ++ l₂) k = some v := by
  induction l₁ with
  | nil => simp [lookupA] at h
  | cons p rest ih =>
    obtain ⟨k', v'⟩ := p
    by_cases hk : k' = k
    · simp only [lookupA, if_pos hk] at h ⊢; exact h
    · simp only [lookupA, if_neg hk] at h ⊢; exact ih h

theorem lookupA_append_none {α β : Type} [DecidableEq α] {l₁ : List (α × β)}
    (l₂ : List (α × β)) {k : α} (h : lookupA l₁ k = none) :
    lookupA (l₁ ++ l₂) k = lookupA l₂ k := by
  induction l₁ with
  | nil => simp [lookupA]
  | cons p rest ih =>
    obtain ⟨k', v'⟩ := p
    by_cases hk : k' = k
    · simp only [lookupA, if_pos hk] at h; cases h
    · simp only [lookupA, if_neg hk] at h ⊢; exact ih h

theorem lookupA_setA_self {α β : Type} [DecidableEq α] (l : List (α × β)) (k : α)
    (v : β) : lookupA (setA l k v) k = some v := by
  induction l with
  | nil => simp [setA, lookupA]
  | cons p rest ih =>
    obtain ⟨k', v'⟩ := p
    by_cases hk : k' = k
    · simp [setA, hk, lookupA]
    · simp [setA, hk, lookupA, ih]

theorem lookupA_setA_ne {α β : Type} [DecidableEq α] (l : List (α × β)) {k k' : α}
    (v : β) (h : k' ≠ k) : lookupA (setA l k v) k' = lookupA l k' := by
  induction l with
  | nil => simp only [setA, lookupA, if_neg (fun hh : k = k' => h hh.symm)]
  | cons p rest ih =>
    obtain ⟨k₀, v₀⟩ := p
    by_cases hk : k₀ = k
    · subst hk
      have h2 : ¬ k₀ = k' := fun hh => h hh.symm
      simp only [setA, if_pos rfl, lookupA, if_neg h2]
    · simp only [setA, if_neg hk, lookupA]
      by_cases h3 : k₀ = k'
      · rw [if_pos h3, if_pos h3]
      · rw [if_neg h3, if_neg h3, ih]

theorem mem_mapFst_setA {α β : Type} [DecidableEq α] (l : List (α × β)) (k : α)
    (v : β) : ∀ k' ∈ (setA l k v).map Prod.fst, k' = k ∨ k' ∈ l.map Prod.fst := by
  induction l with
  | nil => simp [setA]
  | cons p rest ih =>
    obtain ⟨k₀, v₀⟩ := p
    by_cases hk : k₀ = k
    · subst hk; simp [setA]
    · intro k' hk'
      simp only [setA, if_neg hk, List.map_cons, List.mem_cons] at hk'
      rcases hk' with h | h
      · exact Or.inr (by simp [h])
      · rcases ih k' h with h' | h'
        · exact Or.inl h'
        · exact Or.inr (by simp [h'])

/-! ### `destsOf` and `add_transition` -/

theorem destsOf_of_not_key {tr : Transitions} {s : Nat}
    (h : lookupA tr s = none) (sym : String) : destsOf tr s sym = [] := by
  simp [destsOf, h, lookupA]

theorem destsOf_ensureKey (tr : Transitions) (e : Nat) (s : Nat) (sy : String) :
    destsOf (ensureKey tr e) s sy = destsOf tr s sy := by
  unfold ensureKey
  rcases h : lookupA tr e with _ | row
  · by_cases hs : s = e
    · subst hs
      simp [destsOf, lookupA_setA_self, h, lookupA]
    · simp [destsOf, lookupA_setA_ne _ _ hs]
  · rfl

theorem mem_mapFst_ensureKey (tr : Transitions) (e : Nat) :
    ∀ k ∈ (ensureKey tr e).map Prod.fst, k = e ∨ k ∈ tr.map Prod.fst := by
  unfold ensureKey
  rcases h : lookupA tr e with _ | row
  · exact mem_mapFst_setA tr e []
  · intro k hk; exact Or.inr hk

theorem destsOf_add_transition (tr : Transitions) (n : Nat) (sym : String) (e : Nat)
    (s : Nat) (sy : String) :
    destsOf (add_transition tr n sym e) s sy =
      if s = n ∧ sy = sym then destsOf tr n sym ++ [e] else destsOf tr s sy := by
  unfold add_transition
  rw [destsOf_ensureKey]
  rcases h : lookupA tr n with _ | row
  · simp only [h]
    by_cases hs : s = n
    · subst hs
      by_cases hsy : sy = sym
      · subst hsy
        rw [if_pos ⟨rfl, rfl⟩]
        unfold destsOf
        rw [lookupA_setA_self, h]
        simp [lookupA]
      · rw [if_neg (fun hc => hsy hc.2)]
        unfold destsOf
        rw [lookupA_setA_self, h]
        have hss : ¬ sym = sy := fun hh => hsy hh.symm
        simp [lookupA, hss]
    · rw [if_neg (fun hc => hs hc.1)]
      unfold destsOf
      rw [lookupA_setA_ne _ _ hs]
  · simp only [h]
    rcases hd : lookupA row sym with _ | ds
    · simp only [hd]
      by_cases hs : s = n
      · subst hs
        by_cases hsy : sy = sym
        · subst hsy
          rw [if_pos ⟨rfl, rfl⟩]
          unfold destsOf
          rw [lookupA_setA_self, h]
          simp [lookupA_setA_self, hd]
        · rw [if_neg (fun hc => hsy hc.2)]
          unfold destsOf
          rw [lookupA_setA_self, h]
          simp [lookupA_setA_ne _ _ hsy]
      · rw [if_neg (fun hc => hs hc.1)]
        unfold destsOf
        rw [lookupA_setA_ne _ _ hs]
    · simp only [hd]
      by_cases hs : s = n
      · subst hs
        by_cases hsy : sy = sym
        · subst hsy
          rw [if_pos ⟨rfl, rfl⟩]
          unfold destsOf
          rw [lookupA_setA_self, h]
          simp [lookupA_setA_self, hd]
        · rw [if_neg (fun hc => hsy hc.2)]
          unfold destsOf
          rw [lookupA_setA_self, h]
          simp [lookupA_setA_ne _ _ hsy]
      · rw [if_neg (fun hc => hs hc.1)]
        unfold destsOf
        rw [lookupA_setA_ne _ _ hs]

theorem mem_mapFst_add_transition (tr : Transitions) (n : Nat) (sym : String)
    (e : Nat) : ∀ k ∈ (add_transition tr n sym e).map Prod.fst,
      k = n ∨ k = e ∨ k ∈ tr.map Prod.fst := by
  unfold add_transition
  intro k hk
  rcases mem_mapFst_ensureKey _ _ k hk with h | h
  · exact Or.inr (Or.inl h)
  · rcases hn : lookupA tr n with _ | row
    · simp only [hn] at h
      rcases mem_mapFst_setA tr n _ k h with h' | h'
      · exact Or.inl h'
      · exact Or.inr (Or.inr h')
    · simp only [hn] at h
      rcases hd : lookupA row sym with _ | ds
      · simp only [hd] at h
        rcases mem_mapFst_setA tr n _ k h with h' | h'
        · exact Or.inl h'
        · exact Or.inr (Or.inr h')
      · simp only [hd] at h
        rcases mem_mapFst_setA tr n _ k h with h' | h'
        · exact Or.inl h'
        · exact Or.inr (Or.inr h')

/-! ### `move` -/

theorem mem_move {fa : FiniteAutomaton} {states : List Nat} {symbol : String}
    {t : Nat} :
    t ∈ move fa states symbol ↔ ∃ s ∈ states, t ∈ getDests fa s symbol := by
  unfold move
  rw [(List.perm_insertionSort _ _).mem_iff, List.mem_dedup]
  induction states with
  | nil => simp
  | cons s rest ih =>
    simp only [List.foldr_cons, List.mem_append, ih, List.mem_cons]
    constructor
    · rintro (h | ⟨s', hs', h⟩)
      · exact ⟨s, Or.inl rfl, h⟩
      · exact ⟨s', Or.inr hs', h⟩
    · rintro ⟨s', hs' | hs', h⟩
      · subst hs'; exact Or.inl h
      · exact Or.inr ⟨s', hs', h⟩

theorem move_sorted (fa : FiniteAutomaton) (states : List Nat) (symbol : String) :
    (move fa states symbol).Sorted (· ≤ ·) :=
  List.sorted_insertionSort _ _

theorem move_nodup (fa : FiniteAutomaton) (states : List Nat) (symbol : String) :
    (move fa states symbol).Nodup :=
  (List.perm_insertionSort _ _).nodup_iff.2 (List.nodup_dedup _)

/-! ### `allDests` -/

theorem subset_rowDests {row : List (String × List Nat)} {q : String × List Nat}
    (h : q ∈ row) : ∀ y ∈ q.2, y ∈ rowDests row := by
  induction row with
  | nil => cases h
  | cons p rest ih =>
    intro y hy
    rcases List.mem_cons.1 h with he | hm
    · subst he
      exact Finset.mem_union_left _ (List.mem_toFinset.2 hy)
    · exact Finset.mem_union_right _ (ih hm y hy)

theorem rowDests_subset_allDestsT {trs : Transitions}
    {p : Nat × List (String × List Nat)} (h : p ∈ trs) :
    ∀ y ∈ rowDests p.2, y ∈ allDestsT trs := by
  induction trs with
  | nil => cases h
  | cons q rest ih =>
    intro y hy
    rcases List.mem_cons.1 h with he | hm
    · subst he; exact Finset.mem_union_left _ hy
    · exact Finset.mem_union_right _ (ih hm y hy)

theorem getDests_mem_allDests {fa : FiniteAutomaton} {s : Nat} {sym : String}
    {y : Nat} (h : y ∈ getDests fa s sym) : y ∈ allDests fa := by
  unfold getDests destsOf at h
  rcases hr : lookupA fa.transitions s with _ | row
  · rw [hr] at h; simp [lookupA] at h
  · rw [hr] at h
    simp only [Option.getD_some] at h
    rcases hd : lookupA row sym with _ | ds
    · rw [hd] at h; simp at h
    · rw [hd] at h
      simp only [Option.getD_some] at h
      exact rowDests_subset_allDestsT (lookupA_mem hr) y
        (subset_rowDests (lookupA_mem hd) y h)

/-! ### The closure worklist loop -/

theorem foldl_addNew (ts : List Nat) : ∀ c u : List Nat,
    ∃ d : List Nat, ts.foldl addNew (c, u) = (c ++ d, u ++ d) ∧ d.Nodup ∧
      (∀ x ∈ d, x ∉ c ∧ x ∈ ts) ∧ (∀ t ∈ ts, t ∈ c ++ d) := by
  induction ts with
  | nil =>
    intro c u
    exact ⟨[], by simp, List.nodup_nil, by simp, by simp⟩
  | cons t ts ih =>
    intro c u
    by_cases h : t ∈ c
    · obtain ⟨d, hfold, hnd, hprop, hall⟩ := ih c u
      refine ⟨d, ?_, hnd, ?_, ?_⟩
      · simpa [addNew, h] using hfold
      · intro x hx
        exact ⟨(hprop x hx).1, List.mem_cons_of_mem _ (hprop x hx).2⟩
      · intro t' ht'
        rcases List.mem_cons.1 ht' with he | hm
        · subst he; exact List.mem_append_left _ h
        · exact hall t' hm
    · obtain ⟨d, hfold, hnd, hprop, hall⟩ := ih (c ++ [t]) (u ++ [t])
      refine ⟨t :: d, ?_, ?_, ?_, ?_⟩
      · rw [List.foldl_cons]
        have hstep : addNew (c, u) t = (c ++ [t], u ++ [t]) := by simp [addNew, h]
        rw [hstep, hfold]
        simp
      · refine List.nodup_cons.2 ⟨?_, hnd⟩
        intro hmem
        exact (hprop t hmem).1 (List.mem_append_right _ (List.mem_singleton.2 rfl))
      · intro x hx
        rcases List.mem_cons.1 hx with he | hm
        · subst he; exact ⟨h, List.mem_cons_self _ _⟩
        · exact ⟨fun hc => (hprop x hm).1 (List.mem_append_left _ hc),
            List.mem_cons_of_mem _ (hprop x hm).2⟩
      · intro t' ht'
        rcases List.mem_cons.1 ht' with he | hm
        · subst he; simp
        · have hmem := hall t' hm
          simpa [List.append_assoc] using hmem

theorem closureLoopF_spec (fa : FiniteAutomaton) : ∀ (fuel : Nat) (c u : List Nat),
    u.length + ((allDests fa) \ c.toFinset).card ≤ fuel →
    (∀ x ∈ u, x ∈ c) →
    (∀ x ∈ c, x ∉ u → ∀ y ∈ getDests fa x NULL, y ∈ c) →
    ∃ d, closureLoopF fa fuel c u = c ++ d ∧ d.Nodup ∧
      (∀ x ∈ d, x ∉ c ∧ x ∈ allDests fa) ∧
      (∀ x ∈ c ++ d, ∀ y ∈ getDests fa x NULL, y ∈ c ++ d) ∧
      (∀ T : Finset Nat, (∀ z ∈ c, z ∈ T) → EpsClosed fa T → ∀ x ∈ c ++ d, x ∈ T) := by
  intro fuel
  induction fuel with
  | zero =>
    intro c u hfuel hu hinv
    have hu0 : u = [] := by
      cases u with
      | nil => rfl
      | cons a l => simp only [List.length_cons] at hfuel; omega
    subst hu0
    refine ⟨[], by simp [closureLoopF], List.nodup_nil, by simp, ?_, ?_⟩
    · intro x hx y hy
      simp only [List.append_nil] at hx ⊢
      exact hinv x hx (by simp) y hy
    · intro T hT _ x hx
      simp only [List.append_nil] at hx
      exact hT x hx
  | succ fuel ih =>
    intro c u hfuel hu hinv
    by_cases he : u = []
    · subst he
      refine ⟨[], by simp [closureLoopF], List.nodup_nil, by simp, ?_, ?_⟩
      · intro x hx y hy
        simp only [List.append_nil] at hx ⊢
        exact hinv x hx (by simp) y hy
      · intro T hT _ x hx
        simp only [List.append_nil] at hx
        exact hT x hx
    · have hstate_c : u.getLast he ∈ c := hu _ (List.getLast_mem he)
      obtain ⟨d, hfold, hnd, hprop, hall⟩ :=
        foldl_addNew (move fa [u.getLast he] NULL) c u.dropLast
      have hdA : ∀ x ∈ d, x ∈ allDests fa := by
        intro x hx
        have hts : x ∈ move fa [u.getLast he] NULL := (hprop x hx).2
        obtain ⟨s, _, hsd⟩ := mem_move.1 hts
        exact getDests_mem_allDests hsd
      have hred : closureLoopF fa (fuel + 1) c u
          = closureLoopF fa fuel (c ++ d) (u.dropLast ++ d) := by
        show (if h : u = [] then c
          else closureLoopF fa fuel
            ((move fa [u.getLast h] NULL).foldl addNew (c, u.dropLast)).1
            ((move fa [u.getLast h] NULL).foldl addNew (c, u.dropLast)).2) = _
        rw [dif_neg he, hfold]
      have hdsub : d.toFinset ⊆ allDests fa \ c.toFinset := by
        intro x hx
        rw [List.mem_toFinset] at hx
        exact Finset.mem_sdiff.2 ⟨hdA x hx, fun hc =>
          (hprop x hx).1 (List.mem_toFinset.1 hc)⟩
      have hsdiff : (allDests fa) \ (c ++ d).toFinset
          = ((allDests fa) \ c.toFinset) \ d.toFinset := by
        rw [List.toFinset_append]
        ext a
        simp only [Finset.mem_sdiff, Finset.mem_union]
        tauto
      have hdlen : d.toFinset.card = d.length := List.toFinset_card_of_nodup hnd
      have hcard : ((allDests fa) \ (c ++ d).toFinset).card
          = ((allDests fa) \ c.toFinset).card - d.length := by
        rw [hsdiff, Finset.card_sdiff hdsub, hdlen]
      have hdle : d.length ≤ ((allDests fa) \ c.toFinset).card := by
        rw [← hdlen]
        exact Finset.card_le_card hdsub
      have hulen : 0 < u.length := List.length_pos.2 he
      have hfuel' : (u.dropLast ++ d).length
          + ((allDests fa) \ (c ++ d).toFinset).card ≤ fuel := by
        rw [List.length_append, List.length_dropLast, hcard]
        omega
      have hu' : ∀ x ∈ u.dropLast ++ d, x ∈ c ++ d := by
        intro x hx
        rcases List.mem_append.1 hx with hl | hr
        · exact List.mem_append_left _ (hu x ((List.dropLast_sublist u).subset hl))
        · exact List.mem_append_right _ hr
      have hinv' : ∀ x ∈ c ++ d, x ∉ u.dropLast ++ d →
          ∀ y ∈ getDests fa x NULL, y ∈ c ++ d := by
        intro x hx hnx y hy
        rcases List.mem_append.1 hx with hxc | hxd
        · by_cases hxl : x = u.getLast he
          · subst hxl
            exact hall y (mem_move.2 ⟨u.getLast he, by simp, hy⟩)
          · have hxu : x ∉ u := by
              intro hmem
              rw [← List.dropLast_append_getLast he] at hmem
              rcases List.mem_append.1 hmem with hl | hr
              · exact hnx (List.mem_append_left _ hl)
              · exact hxl (List.mem_singleton.1 hr)
            exact List.mem_append_left _ (hinv x hxc hxu y hy)
        · exact absurd (List.mem_append_right _ hxd) hnx
      obtain ⟨d₂, heq, hnd₂, hprop₂, hclosed₂, hmin₂⟩ :=
        ih (c ++ d) (u.dropLast ++ d) hfuel' hu' hinv'
      refine ⟨d ++ d₂, ?_, ?_, ?_, ?_, ?_⟩
      · rw [hred, heq, List.append_assoc]
      · refine List.nodup_append.2 ⟨hnd, hnd₂, ?_⟩
        intro a ha ha₂
        exact (hprop₂ a ha₂).1 (List.mem_append_right _ ha)
      · intro x hx
        rcases List.mem_append.1 hx with hl | hr
        · exact ⟨(hprop x hl).1, hdA x hl⟩
        · exact ⟨fun hc => (hprop₂ x hr).1 (List.mem_append_left _ hc),
            (hprop₂ x hr).2⟩
      · intro x hx y hy
        rw [← List.append_assoc] at hx ⊢
        exact hclosed₂ x hx y hy
      · intro T hT hcl x hx
        have hTd : ∀ z ∈ c ++ d, z ∈ T := by
          intro z hz
          rcases List.mem_append.1 hz with hzc | hzd
          · exact hT z hzc
          · obtain ⟨s, hs, hsd'⟩ := mem_move.1 (hprop z hzd).2
            have hsl : s = u.getLast he := List.mem_singleton.1 hs
            have hsT : s ∈ T := hT s (by rw [hsl]; exact hstate_c)
            exact hcl s hsT z hsd'
        rw [← List.append_assoc] at hx
        exact hmin₂ T hTd hcl x hx

/-- The closure loop run with the fuel that `null_closure` supplies. -/
theorem null_closure_run (fa : FiniteAutomaton) (S : List Nat) :
    ∃ d, closureLoopF fa (S.length + (allDests fa).card) S S = S ++ d ∧ d.Nodup ∧
      (∀ x ∈ d, x ∉ S ∧ x ∈ allDests fa) ∧
      (∀ x ∈ S ++ d, ∀ y ∈ getDests fa x NULL, y ∈ S ++ d) ∧
      (∀ T : Finset Nat, (∀ z ∈ S, z ∈ T) → EpsClosed fa T → ∀ x ∈ S ++ d, x ∈ T) := by
  apply closureLoopF_spec
  · have hle : ((allDests fa) \ S.toFinset).card ≤ (allDests fa).card :=
      Finset.card_le_card Finset.sdiff_subset
    omega
  · exact fun x hx => hx
  · intro x hx hnx
    exact absurd hx hnx

theorem null_closure_sorted (fa : FiniteAutomaton) (S : List Nat) :
    (null_closure fa S).Sorted (· ≤ ·) :=
  List.sorted_insertionSort _ _

theorem null_closure_perm (fa : FiniteAutomaton) (S : List Nat) :
    ∃ d, (null_closure fa S).Perm (S ++ d) ∧ d.Nodup ∧
      (∀ x ∈ d, x ∉ S ∧ x ∈ allDests fa) ∧
      (∀ x ∈ S ++ d, ∀ y ∈ getDests fa x NULL, y ∈ S ++ d) ∧
      (∀ T : Finset Nat, (∀ z ∈ S, z ∈ T) → EpsClosed fa T → ∀ x ∈ S ++ d, x ∈ T) := by
  obtain ⟨d, heq, h⟩ := null_closure_run fa S
  exact ⟨d, by rw [null_closure, heq]; exact List.perm_insertionSort _ _, h⟩

theorem mem_null_closure_of_mem {fa : FiniteAutomaton} {S : List Nat} {x : Nat}
    (hx : x ∈ S) : x ∈ null_closure fa S := by
  obtain ⟨d, hperm, -⟩ := null_closure_perm fa S
  exact hperm.mem_iff.2 (List.mem_append_left _ hx)

theorem null_closure_nodup {fa : FiniteAutomaton} {S : List Nat} (hS : S.Nodup) :
    (null_closure fa S).Nodup := by
  obtain ⟨d, hperm, hnd, hprop, -⟩ := null_closure_perm fa S
  refine hperm.nodup_iff.2 (List.nodup_append.2 ⟨hS, hnd, ?_⟩)
  intro a ha had
  exact (hprop a had).1 ha

theorem null_closure_count {fa : FiniteAutomaton} {S : List Nat} {x : Nat}
    (hx : x ∈ S) : (null_closure fa S).count x = S.count x := by
  obtain ⟨d, hperm, hnd, hprop, -⟩ := null_closure_perm fa S
  rw [hperm.count_eq, List.count_append,
    List.count_eq_zero.2 (fun hxd => (hprop x hxd).1 hx)]
  simp

theorem null_closure_mem_cases {fa : FiniteAutomaton} {S : List Nat} {x : Nat}
    (hx : x ∈ null_closure fa S) : x ∈ S ∨ x ∈ allDests fa := by
  obtain ⟨d, hperm, hnd, hprop, -⟩ := null_closure_perm fa S
  rcases List.mem_append.1 (hperm.mem_iff.1 hx) with h | h
  · exact Or.inl h
  · exact Or.inr (hprop x h).2

theorem null_closure_isClosure (fa : FiniteAutomaton) (S : List Nat) :
    IsEpsClosureOf fa S.toFinset (null_closure fa S).toFinset := by
  obtain ⟨d, hperm, hnd, hprop, hclosed, hmin⟩ := null_closure_perm fa S
  have hset : (null_closure fa S).toFinset = (S ++ d).toFinset :=
    List.toFinset_eq_of_perm _ _ hperm
  refine ⟨?_, ?_, ?_⟩
  · intro a ha
    rw [hset, List.mem_toFinset]
    exact List.mem_append_left _ (List.mem_toFinset.1 ha)
  · intro a ha y hy
    rw [hset, List.mem_toFinset] at ha ⊢
    exact hclosed a ha y hy
  · intro T hT hcl a ha
    rw [hset, List.mem_toFinset] at ha
    exact hmin T (fun z hz => hT (List.mem_toFinset.2 hz)) hcl a ha

/-! ### Canonical sorted representations -/

theorem eq_of_sorted_nodup_toFinset_eq {l₁ l₂ : List Nat}
    (hs₁ : l₁.Sorted (· ≤ ·)) (hs₂ : l₂.Sorted (· ≤ ·))
    (hn₁ : l₁.Nodup) (hn₂ : l₂.Nodup) (h : l₁.toFinset = l₂.toFinset) :
    l₁ = l₂ := by
  apply List.eq_of_perm_of_sorted _ hs₁ hs₂
  rw [List.perm_ext_iff_of_nodup hn₁ hn₂]
  intro a
  rw [← List.mem_toFinset, h, List.mem_toFinset]

theorem sorted_nodup_eq_sort {l : List Nat} (hs : l.Sorted (· ≤ ·))
    (hn : l.Nodup) : Finset.sort (· ≤ ·) l.toFinset = l := by
  apply List.eq_of_perm_of_sorted _ (Finset.sort_sorted _ _) hs
  rw [List.perm_ext_iff_of_nodup (Finset.sort_nodup _ _) hn]
  intro a
  rw [Finset.mem_sort, List.mem_toFinset]

theorem mem_keyUniverse {fa : FiniteAutomaton} {l : List Nat}
    (hs : l.Sorted (· ≤ ·)) (hn : l.Nodup) (hsub : l.toFinset ⊆ allDests fa) :
    l ∈ keyUniverse fa := by
  unfold keyUniverse
  rw [Finset.mem_image]
  exact ⟨l.toFinset, Finset.mem_powerset.2 hsub, sorted_nodup_eq_sort hs hn⟩

/-- The canonical subset produced for a nonempty move is always a member of
the key universe. -/
theorem null_closure_move_mem_keyUniverse (fa : FiniteAutomaton)
    (states : List Nat) (symbol : String) :
    null_closure fa (move fa states symbol) ∈ keyUniverse fa := by
  refine mem_keyUniverse (null_closure_sorted _ _)
    (null_closure_nodup (move_nodup _ _ _)) ?_
  intro x hx
  rw [List.mem_toFinset] at hx
  rcases null_closure_mem_cases hx with h | h
  · obtain ⟨s, -, hsd⟩ := mem_move.1 h
    exact getDests_mem_allDests hsd
  · exact h

/-! ### The subset-construction worklist loop -/

theorem value_bounds {b : DfaBuild}
    (h2 : b.dfa_states.map Prod.snd = List.range' 1 b.dfa_states.length)
    {p : List Nat × Nat} (hp : p ∈ b.dfa_states) :
    1 ≤ p.2 ∧ p.2 ≤ b.dfa_states.length := by
  have hm : p.2 ∈ b.dfa_states.map Prod.snd := List.mem_map_of_mem _ hp
  rw [h2] at hm
  have := List.mem_range'_1.1 hm
  omega

theorem values_inj {l : List (List Nat × Nat)} (hv : (l.map Prod.snd).Nodup)
    {p q : List Nat × Nat} (hp : p ∈ l) (hq : q ∈ l) (he : p.2 = q.2) :
    p = q := by
  induction l with
  | nil => cases hp
  | cons a rest ih =>
    rw [List.map_cons, List.nodup_cons] at hv
    rcases List.mem_cons.1 hp with hpa | hpm
    · rcases List.mem_cons.1 hq with hqa | hqm
      · rw [hpa, hqa]
      · exfalso
        have hq2 : q.2 ∈ rest.map Prod.snd := List.mem_map_of_mem _ hqm
        rw [← he, hpa] at hq2
        exact hv.1 hq2
    · rcases List.mem_cons.1 hq with hqa | hqm
      · exfalso
        have hp2 : p.2 ∈ rest.map Prod.snd := List.mem_map_of_mem _ hpm
        rw [he, hqa] at hp2
        exact hv.1 hp2
      · exact ih hv.2 hpm hqm

theorem processSymbol_cases (fa : FiniteAutomaton) (n : Nat) (start : List Nat)
    (b : DfaBuild) (symbol : String) :
    (move fa start symbol = [] ∧ processSymbol fa n start b symbol = b) ∨
    (move fa start symbol ≠ [] ∧
      ∃ e, lookupA b.dfa_states (null_closure fa (move fa start symbol)) = some e ∧
      processSymbol fa n start b symbol =
        { b with dfa_trans := add_transition b.dfa_trans n symbol e }) ∨
    (move fa start symbol ≠ [] ∧
      lookupA b.dfa_states (null_closure fa (move fa start symbol)) = none ∧
      processSymbol fa n start b symbol =
        { dfa_trans := add_transition b.dfa_trans n symbol (b.dfa_states.length + 1),
          dfa_states := b.dfa_states ++
            [(null_closure fa (move fa start symbol), b.dfa_states.length + 1)],
          unmarked := b.unmarked ++ [null_closure fa (move fa start symbol)] }) := by
  by_cases hm : move fa start symbol = []
  · exact Or.inl ⟨hm, by simp [processSymbol, hm]⟩
  · rcases hl : lookupA b.dfa_states (null_closure fa (move fa start symbol))
      with _ | e
    · refine Or.inr (Or.inr ⟨hm, rfl, ?_⟩)
      simp [processSymbol, hm, hl]
    · refine Or.inr (Or.inl ⟨hm, e, rfl, ?_⟩)
      simp [processSymbol, hm, hl]

theorem valsNodup {b : DfaBuild}
    (h2 : b.dfa_states.map Prod.snd = List.range' 1 b.dfa_states.length) :
    (b.dfa_states.map Prod.snd).Nodup := by
  rw [h2]; exact List.nodup_range' _ _

theorem lookupA_append_new {α β : Type} [DecidableEq α] {l : List (α × β)}
    {k : α} (v : β) (h : lookupA l k = none) :
    lookupA (l ++ [(k, v)]) k = some v := by
  rw [lookupA_append_none _ h]; simp [lookupA]

theorem mem_keys_of_lookupA {α β : Type} [DecidableEq α] {l : List (α × β)}
    {k : α} {v : β} (h : lookupA l k = some v) : k ∈ l.map Prod.fst :=
  List.mem_map_of_mem _ (lookupA_mem h)

theorem foldSyms_spec (fa : FiniteAutomaton) (n : Nat) (start : List Nat) :
    ∀ (syms : List String) (b : DfaBuild),
      InvD b →
      lookupA b.dfa_states start = some n →
      start ∉ b.unmarked →
      ∃ ext,
        (syms.foldl (processSymbol fa n start) b).dfa_states
          = b.dfa_states ++ ext ∧
        (syms.foldl (processSymbol fa n start) b).unmarked
          = b.unmarked ++ ext.map Prod.fst ∧
        (∀ p ∈ ext, p.1 ∈ keyUniverse fa ∧ p.1 ∉ b.dfa_states.map Prod.fst) ∧
        InvD (syms.foldl (processSymbol fa n start) b) ∧
        (syms.Nodup →
          (∀ sym ∈ syms, destsOf b.dfa_trans n sym = []) →
          TrInv b → TrInv (syms.foldl (processSymbol fa n start) b)) := by
  intro syms
  induction syms with
  | nil =>
    intro b hI hlk hns
    exact ⟨[], by simp, by simp, by simp, hI, fun _ _ hT => hT⟩
  | cons sym₀ rest ih =>
    intro b hI hlk hns
    rw [List.foldl_cons]
    have hn : n ≤ b.dfa_states.length := (value_bounds hI.2.1 (lookupA_mem hlk)).2
    rcases processSymbol_cases fa n start b sym₀ with
      ⟨hm, heq⟩ | ⟨hm, e, hl, heq⟩ | ⟨hm, hl, heq⟩
    · rw [heq]
      obtain ⟨ext, h1, h2, h3, h4, h5⟩ := ih b hI hlk hns
      refine ⟨ext, h1, h2, h3, h4, ?_⟩
      intro hnd hempty hT
      exact h5 (List.nodup_cons.1 hnd).2
        (fun sym hsym => hempty sym (List.mem_cons_of_mem _ hsym)) hT
    · -- the canonical subset is already known: only `dfa_trans` changes
      rw [heq]
      have hI₁ : InvD { b with dfa_trans := add_transition b.dfa_trans n sym₀ e } := hI
      obtain ⟨ext, h1, h2, h3, h4, h5⟩ := ih _ hI₁ hlk hns
      refine ⟨ext, h1, h2, h3, h4, ?_⟩
      intro hnd hempty hT
      obtain ⟨hT1, hT2, hT3⟩ := hT
      have hnsym : destsOf b.dfa_trans n sym₀ = [] :=
        hempty sym₀ (List.mem_cons_self _ _)
      have hDadd : ∀ s sy, destsOf (add_transition b.dfa_trans n sym₀ e) s sy =
          if s = n ∧ sy = sym₀ then destsOf b.dfa_trans n sym₀ ++ [e]
          else destsOf b.dfa_trans s sy :=
        fun s sy => destsOf_add_transition _ _ _ _ _ _
      have hen : e ≤ b.dfa_states.length := (value_bounds hI.2.1 (lookupA_mem hl)).2
      refine h5 (List.nodup_cons.1 hnd).2 ?_ ⟨?_, ?_, ?_⟩
      · intro sym hsym
        have hne : ¬ (n = n ∧ sym = sym₀) := fun hc =>
          (List.nodup_cons.1 hnd).1 (hc.2 ▸ hsym)
        rw [hDadd, if_neg hne]
        exact hempty sym (List.mem_cons_of_mem _ hsym)
      · intro s sy
        rw [hDadd]
        by_cases hc : s = n ∧ sy = sym₀
        · rw [if_pos hc, hnsym]; simp
        · rw [if_neg hc]; exact hT1 s sy
      · intro kk hkk
        rcases mem_mapFst_add_transition _ _ _ _ kk hkk with h' | h' | h'
        · exact h' ▸ hn
        · exact h' ▸ hen
        · exact hT2 kk h'
      · intro st hst m hm' sy
        have hmn : m ≠ n := by
          intro hcon
          have hp := lookupA_mem hm'
          have hq := lookupA_mem hlk
          have hpq := values_inj (valsNodup hI.2.1) hp hq (by rw [hcon])
          have hsteq : st = start := congrArg Prod.fst hpq
          rw [hsteq] at hst
          exact hns hst
        rw [hDadd, if_neg (fun hc => hmn hc.1)]
        exact hT3 st hst m hm' sy
    · -- a newly discovered canonical subset
      rw [heq]
      have hknotin : null_closure fa (move fa start sym₀) ∉
          b.dfa_states.map Prod.fst := (lookupA_eq_none _ _).1 hl
      have hkKU : null_closure fa (move fa start sym₀) ∈ keyUniverse fa :=
        null_closure_move_mem_keyUniverse fa start sym₀
      have hkun : null_closure fa (move fa start sym₀) ∉ b.unmarked := by
        intro hku
        obtain ⟨m, hm⟩ := hI.2.2.2.2 _ hku
        exact hknotin (mem_keys_of_lookupA hm)
      obtain ⟨hKnd, hVals, hCanon, hUnd, hUkeys⟩ := hI
      have hI₁ : InvD
          { dfa_trans := add_transition b.dfa_trans n sym₀ (b.dfa_states.length + 1),
            dfa_states := b.dfa_states ++
              [(null_closure fa (move fa start sym₀), b.dfa_states.length + 1)],
            unmarked := b.unmarked ++ [null_closure fa (move fa start sym₀)] } := by
        refine ⟨?_, ?_, ?_, ?_, ?_⟩
        · simp only [List.map_append]
          refine List.nodup_append.2 ⟨hKnd, by simp, ?_⟩
          intro a ha ha'
          simp only [List.map_cons, List.map_nil, List.mem_singleton] at ha'
          exact hknotin (ha' ▸ ha)
        · simp only [List.map_append, List.length_append, hVals]
          simp [List.range'_concat, Nat.add_comm]
        · intro p hp
          rcases List.mem_append.1 hp with hpo | hpn
          · exact hCanon p hpo
          · rw [List.mem_singleton] at hpn
            subst hpn
            exact ⟨null_closure_sorted _ _, null_closure_nodup (move_nodup _ _ _)⟩
        · refine List.nodup_append.2 ⟨hUnd, by simp, ?_⟩
          intro a ha ha'
          rw [List.mem_singleton] at ha'
          exact hkun (ha' ▸ ha)
        · intro st hst
          rcases List.mem_append.1 hst with hso | hsn
          · obtain ⟨m, hm⟩ := hUkeys st hso
            exact ⟨m, lookupA_append_some _ hm⟩
          · rw [List.mem_singleton] at hsn
            subst hsn
            exact ⟨b.dfa_states.length + 1, lookupA_append_new _ hl⟩
      have hlk₁ : lookupA (b.dfa_states ++
          [(null_closure fa (move fa start sym₀), b.dfa_states.length + 1)])
          start = some n := lookupA_append_some _ hlk
      have hns₁ : start ∉ b.unmarked ++ [null_closure fa (move fa start sym₀)] := by
        intro hc
        rcases List.mem_append.1 hc with hc | hc
        · exact hns hc
        · rw [List.mem_singleton] at hc
          exact hknotin (hc ▸ mem_keys_of_lookupA hlk)
      obtain ⟨ext, h1, h2, h3, h4, h5⟩ := ih _ hI₁ hlk₁ hns₁
      refine ⟨(null_closure fa (move fa start sym₀), b.dfa_states.length + 1) :: ext,
        ?_, ?_, ?_, h4, ?_⟩
      · rw [h1, List.append_assoc, List.singleton_append]
      · rw [h2, List.append_assoc, List.singleton_append, List.map_cons]
      · intro p hp
        rcases List.mem_cons.1 hp with hpe | hpm
        · subst hpe
          exact ⟨hkKU, hknotin⟩
        · refine ⟨(h3 p hpm).1, fun hc => (h3 p hpm).2 ?_⟩
          rw [List.map_append]
          exact List.mem_append_left _ hc
      · intro hnd hempty hT
        obtain ⟨hT1, hT2, hT3⟩ := hT
        have hnsym : destsOf b.dfa_trans n sym₀ = [] :=
          hempty sym₀ (List.mem_cons_self _ _)
        have hDadd : ∀ s sy,
            destsOf (add_transition b.dfa_trans n sym₀ (b.dfa_states.length + 1)) s sy =
            if s = n ∧ sy = sym₀ then destsOf b.dfa_trans n sym₀ ++ [b.dfa_states.length + 1]
            else destsOf b.dfa_trans s sy :=
          fun s sy => destsOf_add_transition _ _ _ _ _ _
        have hfresh : lookupA b.dfa_trans (b.dfa_states.length + 1) = none := by
          rw [lookupA_eq_none]
          intro hmem
          have := hT2 _ hmem
          omega
        refine h5 (List.nodup_cons.1 hnd).2 ?_ ⟨?_, ?_, ?_⟩
        · intro sym hsym
          have hne : ¬ (n = n ∧ sym = sym₀) := fun hc =>
            (List.nodup_cons.1 hnd).1 (hc.2 ▸ hsym)
          rw [hDadd, if_neg hne]
          exact hempty sym (List.mem_cons_of_mem _ hsym)
        · intro s sy
          rw [hDadd]
          by_cases hc : s = n ∧ sy = sym₀
          · rw [if_pos hc, hnsym]; simp
          · rw [if_neg hc]; exact hT1 s sy
        · intro kk hkk
          simp only [List.length_append, List.length_cons, List.length_nil]
          rcases mem_mapFst_add_transition _ _ _ _ kk hkk with h' | h' | h'
          · omega
          · omega
          · have := hT2 kk h'
            omega
        · intro st hst m hm' sy
          rcases List.mem_append.1 hst with hso | hsn
          · obtain ⟨m₀, hm₀⟩ := hUkeys st hso
            have h2 := lookupA_append_some
              ([(null_closure fa (move fa start sym₀), b.dfa_states.length + 1)]) hm₀
            have hmeq : m = m₀ := Option.some.inj (hm'.symm.trans h2)
            subst hmeq
            have hmn : m ≠ n := by
              intro hcon
              have hp := lookupA_mem hm₀
              have hq := lookupA_mem hlk
              have hpq := values_inj (valsNodup hVals) hp hq (by rw [hcon])
              have hsteq : st = start := congrArg Prod.fst hpq
              rw [hsteq] at hso
              exact hns hso
            rw [hDadd, if_neg (fun hc => hmn hc.1)]
            exact hT3 st hso m hm₀ sy
          · rw [List.mem_singleton] at hsn
            subst hsn
            have h2 := lookupA_append_new
              (l := b.dfa_states) (b.dfa_states.length + 1) hl
            have hmeq : m = b.dfa_states.length + 1 :=
              Option.some.inj (hm'.symm.trans h2)
            subst hmeq
            have hmn : ¬ (b.dfa_states.length + 1 = n ∧ sy = sym₀) := fun hc => by
              omega
            rw [hDadd, if_neg hmn]
            exact destsOf_of_not_key hfresh sy

theorem toDfaLoopF_spec (fa : FiniteAutomaton) : ∀ (fuel : Nat) (b : DfaBuild),
    b.unmarked.length
      + ((keyUniverse fa) \ (b.dfa_states.map Prod.fst).toFinset).card ≤ fuel →
    InvD b →
    (toDfaLoopF fa fuel b).unmarked = [] ∧
    InvD (toDfaLoopF fa fuel b) ∧
    (∃ ext, (toDfaLoopF fa fuel b).dfa_states = b.dfa_states ++ ext ∧
      ∀ p ∈ ext, p.1 ∈ keyUniverse fa) ∧
    (fa.alphabet.Nodup → TrInv b → TrInv (toDfaLoopF fa fuel b)) := by
  intro fuel
  induction fuel with
  | zero =>
    intro b hfuel hI
    have hu0 : b.unmarked = [] := by
      cases hu : b.unmarked with
      | nil => rfl
      | cons a l => rw [hu] at hfuel; simp only [List.length_cons] at hfuel; omega
    exact ⟨hu0, hI, ⟨[], by simp [toDfaLoopF], by simp⟩, fun _ hT => hT⟩
  | succ fuel ih =>
    intro b hfuel hI
    cases hu : b.unmarked with
    | nil =>
      have hred : toDfaLoopF fa (fuel + 1) b = b := by
        show (match b.unmarked with
          | [] => b
          | start :: rest =>
            toDfaLoopF fa fuel (markState fa start { b with unmarked := rest })) = b
        rw [hu]
      rw [hred]
      exact ⟨hu, hI, ⟨[], by simp, by simp⟩, fun _ hT => hT⟩
    | cons start rest =>
      have hred : toDfaLoopF fa (fuel + 1) b
          = toDfaLoopF fa fuel (markState fa start { b with unmarked := rest }) := by
        show (match b.unmarked with
          | [] => b
          | start :: rest =>
            toDfaLoopF fa fuel (markState fa start { b with unmarked := rest })) = _
        rw [hu]
      obtain ⟨hKnd, hVals, hCanon, hUnd, hUkeys⟩ := hI
      rw [hu] at hUnd hUkeys
      obtain ⟨n, hn⟩ := hUkeys start (List.mem_cons_self _ _)
      have hI₀ : InvD { b with unmarked := rest } :=
        ⟨hKnd, hVals, hCanon, (List.nodup_cons.1 hUnd).2,
          fun st hst => hUkeys st (List.mem_cons_of_mem _ hst)⟩
      have hns₀ : start ∉ ({ b with unmarked := rest } : DfaBuild).unmarked :=
        (List.nodup_cons.1 hUnd).1
      have hms : markState fa start { b with unmarked := rest }
          = fa.alphabet.foldl (processSymbol fa n start) { b with unmarked := rest } := by
        unfold markState
        have hproj : ({ b with unmarked := rest } : DfaBuild).dfa_states
            = b.dfa_states := rfl
        rw [hproj, hn]
        rfl
      obtain ⟨ext, h1, h2, h3, h4, h5⟩ :=
        foldSyms_spec fa n start fa.alphabet { b with unmarked := rest } hI₀ hn hns₀
      rw [← hms] at h1 h2 h4 h5
      -- fuel accounting for the recursive call
      have hknd' : ((markState fa start { b with unmarked := rest }).dfa_states.map
          Prod.fst).Nodup := h4.1
      rw [h1, List.map_append] at hknd'
      have hextnd : (ext.map Prod.fst).Nodup := (List.nodup_append.1 hknd').2.1
      have hdisj : ∀ a ∈ ext.map Prod.fst, a ∉ b.dfa_states.map Prod.fst := by
        intro a ha hc
        exact (List.nodup_append.1 hknd').2.2 hc ha
      have hextKU : ∀ a ∈ ext.map Prod.fst, a ∈ keyUniverse fa := by
        intro a ha
        obtain ⟨p, hp, hpe⟩ := List.mem_map.1 ha
        exact hpe ▸ (h3 p hp).1
      have hsub : (ext.map Prod.fst).toFinset ⊆
          keyUniverse fa \ (b.dfa_states.map Prod.fst).toFinset := by
        intro a ha
        rw [List.mem_toFinset] at ha
        exact Finset.mem_sdiff.2 ⟨hextKU a ha, fun hc =>
          hdisj a ha (List.mem_toFinset.1 hc)⟩
      have hextlen : (ext.map Prod.fst).toFinset.card = ext.length := by
        rw [List.toFinset_card_of_nodup hextnd, List.length_map]
      have hsdiff : keyUniverse fa \ ((markState fa start
            { b with unmarked := rest }).dfa_states.map Prod.fst).toFinset
          = (keyUniverse fa \ (b.dfa_states.map Prod.fst).toFinset)
            \ (ext.map Prod.fst).toFinset := by
        rw [h1, List.map_append, List.toFinset_append]
        ext a
        simp only [Finset.mem_sdiff, Finset.mem_union]
        tauto
      have hcard : (keyUniverse fa \ ((markState fa start
            { b with unmarked := rest }).dfa_states.map Prod.fst).toFinset).card
          = (keyUniverse fa \ (b.dfa_states.map Prod.fst).toFinset).card
            - ext.length := by
        rw [hsdiff, Finset.card_sdiff hsub, hextlen]
      have hextle : ext.length ≤
          (keyUniverse fa \ (b.dfa_states.map Prod.fst).toFinset).card := by
        rw [← hextlen]
        exact Finset.card_le_card hsub
      have hulen : (markState fa start
          { b with unmarked := rest }).unmarked.length
          = rest.length + ext.length := by
        rw [h2]
        simp
      have hfuel' : (markState fa start { b with unmarked := rest }).unmarked.length
          + (keyUniverse fa \ ((markState fa start
            { b with unmarked := rest }).dfa_states.map Prod.fst).toFinset).card
          ≤ fuel := by
        rw [hulen, hcard]
        rw [hu] at hfuel
        simp only [List.length_cons] at hfuel
        omega
      obtain ⟨hu', hI', ⟨ext₂, h1₂, h3₂⟩, hT'⟩ :=
        ih (markState fa start { b with unmarked := rest }) hfuel' h4
      rw [hred]
      refine ⟨hu', hI', ⟨ext ++ ext₂, ?_, ?_⟩, ?_⟩
      · rw [h1₂, h1, List.append_assoc]
      · intro p hp
        rcases List.mem_append.1 hp with hp | hp
        · exact (h3 p hp).1
        · exact h3₂ p hp
      · intro hA hT
        have hempty : ∀ sym ∈ fa.alphabet,
            destsOf ({ b with unmarked := rest } : DfaBuild).dfa_trans n sym = [] := by
          intro sym hsym
          exact hT.2.2 start (by rw [hu]; exact List.mem_cons_self _ _) n hn sym
        have hT₀ : TrInv { b with unmarked := rest } :=
          ⟨hT.1, hT.2.1, fun st hst => hT.2.2 st
            (by rw [hu]; exact List.mem_cons_of_mem _ hst)⟩
        exact hT' hA (h5 hA hempty hT₀)

theorem initBuild_invD (fa : FiniteAutomaton) : InvD (initBuild fa) := by
  refine ⟨?_, ?_, ?_, ?_, ?_⟩
  · simp [initBuild]
  · simp [initBuild, List.range']
  · intro p hp
    simp only [initBuild, List.mem_singleton] at hp
    subst hp
    exact ⟨null_closure_sorted _ _, null_closure_nodup (by simp)⟩
  · simp [initBuild]
  · intro st hst
    simp only [initBuild, List.mem_singleton] at hst
    subst hst
    exact ⟨1, by simp [initBuild, lookupA]⟩

theorem initBuild_trInv (fa : FiniteAutomaton) : TrInv (initBuild fa) := by
  refine ⟨?_, ?_, ?_⟩
  · intro s sym
    simp [initBuild, destsOf, lookupA]
  · intro k hk
    simp [initBuild] at hk
  · intro st hst m hm sym
    simp [initBuild, destsOf, lookupA]

theorem finalBuild_spec (fa : FiniteAutomaton) :
    (finalBuild fa).unmarked = [] ∧
    InvD (finalBuild fa) ∧
    (∃ ext, (finalBuild fa).dfa_states
      = (null_closure fa [fa.initial_state], 1) :: ext ∧
      ∀ p ∈ ext, p.1 ∈ keyUniverse fa) ∧
    (fa.alphabet.Nodup → TrInv (finalBuild fa)) := by
  have hfuel : (initBuild fa).unmarked.length
      + ((keyUniverse fa)
        \ ((initBuild fa).dfa_states.map Prod.fst).toFinset).card
      ≤ 1 + 2 ^ (allDests fa).card := by
    have h1 : ((keyUniverse fa)
        \ ((initBuild fa).dfa_states.map Prod.fst).toFinset).card
        ≤ (keyUniverse fa).card :=
      Finset.card_le_card Finset.sdiff_subset
    have h2 : (keyUniverse fa).card ≤ 2 ^ (allDests fa).card := by
      calc (keyUniverse fa).card
          ≤ (allDests fa).powerset.card := Finset.card_image_le
        _ = 2 ^ (allDests fa).card := Finset.card_powerset _
    have h3 : (initBuild fa).unmarked.length = 1 := by simp [initBuild]
    omega
  obtain ⟨hu, hI, ⟨ext, h1, h3⟩, hT⟩ :=
    toDfaLoopF_spec fa (1 + 2 ^ (allDests fa).card) (initBuild fa) hfuel
      (initBuild_invD fa)
  refine ⟨hu, hI, ⟨ext, ?_, h3⟩, fun hA => hT hA (initBuild_trInv fa)⟩
  rw [show finalBuild fa
    = toDfaLoopF fa (1 + 2 ^ (allDests fa).card) (initBuild fa) from rfl, h1]
  rfl

theorem toDfaLoopF_of_empty {fa : FiniteAutomaton} {b : DfaBuild}
    (h : b.unmarked = []) : ∀ fuel, toDfaLoopF fa fuel b = b
  | 0 => rfl
  | fuel + 1 => by
    show (match b.unmarked with
      | [] => b
      | start :: rest =>
        toDfaLoopF fa fuel (markState fa start { b with unmarked := rest })) = b
    rw [h]

/-! ### The claims -/

/-- C1 (amended): for every automaton and list of states `S`, `null_closure`
returns the epsilon-closure of `S` — the smallest set containing the input
states and closed under epsilon-move — as a sorted sequence; provided the
compared input lists are duplicate-free, any two calls whose resulting sets
are equal produce identical sequences regardless of discovery order. -/
theorem nullClosure_closure_canonical (fa : FiniteAutomaton) (S : List Nat) :
    (null_closure fa S).Sorted (· ≤ ·) ∧
    IsEpsClosureOf fa S.toFinset (null_closure fa S).toFinset ∧
    (∀ S₂ : List Nat, S.Nodup → S₂.Nodup →
      (null_closure fa S).toFinset = (null_closure fa S₂).toFinset →
      null_closure fa S = null_closure fa S₂) := by
  refine ⟨null_closure_sorted fa S, null_closure_isClosure fa S, ?_⟩
  intro S₂ h₁ h₂ hset
  exact eq_of_sorted_nodup_toFinset_eq (null_closure_sorted fa S)
    (null_closure_sorted fa S₂) (null_closure_nodup h₁)
    (null_closure_nodup h₂) hset

theorem nullClosure_closure_canonical_witness :
    ([0] : List Nat).Nodup ∧ ([1, 0] : List Nat).Nodup ∧
    (null_closure exFa [0]).toFinset = (null_closure exFa [1, 0]).toFinset ∧
    null_closure exFa [0] = null_closure exFa [1, 0] :=
  ⟨by decide, by decide, by decide,
    (nullClosure_closure_canonical exFa [0]).2.2 [1, 0] (by decide) (by decide)
      (by decide)⟩

/-- C1 counterexample: on a well-formed automaton, two calls on input lists
with equal resulting sets return different sequences when one input repeats a
state, so the canonical-key property fails for arbitrary lists. -/
theorem nullClosure_dup_breaks_canonical :
    WellFormed exFaE ∧
    (null_closure exFaE [1, 1]).toFinset = (null_closure exFaE [1]).toFinset ∧
    null_closure exFaE [1, 1] ≠ null_closure exFaE [1] :=
  ⟨⟨by decide, by decide⟩, by decide, by decide⟩

/-- C6: every input state is contained in its epsilon-closure. -/
theorem nullClosure_monotone (fa : FiniteAutomaton) (S : List Nat) :
    ∀ x ∈ S, x ∈ null_closure fa S :=
  fun _ hx => mem_null_closure_of_mem hx

theorem nullClosure_monotone_witness :
    (0 : Nat) ∈ ([0] : List Nat) ∧ (0 : Nat) ∈ null_closure exFa [0] :=
  ⟨by decide, nullClosure_monotone exFa [0] 0 (by decide)⟩

/-- C7: the epsilon-closure operation is idempotent as an operation on state
sets (comparing results as sets, before canonicalization). -/
theorem nullClosure_idempotent (fa : FiniteAutomaton) (S : List Nat) :
    (null_closure fa (null_closure fa S)).toFinset
      = (null_closure fa S).toFinset := by
  obtain ⟨h1, h2, h3⟩ := null_closure_isClosure fa (null_closure fa S)
  have hC := null_closure_isClosure fa S
  apply Finset.Subset.antisymm
  · exact h3 _ (fun a ha => ha) hC.2.1
  · exact h1

/-- C8: `move` is total and never fails: absent states contribute the empty
set, and the result is exactly the set of states reachable in one
`symbol`-step from some input state. -/
theorem move_total_characterization (fa : FiniteAutomaton) (states : List Nat)
    (symbol : String) :
    (∀ t, t ∈ move fa states symbol ↔ ∃ s ∈ states, t ∈ getDests fa s symbol) ∧
    (∀ s, lookupA fa.transitions s = none → getDests fa s symbol = []) :=
  ⟨fun _ => mem_move, fun _ hs => destsOf_of_not_key hs symbol⟩

theorem move_total_characterization_witness :
    lookupA exFa.transitions 99 = none ∧ getDests exFa 99 "a" = [] :=
  ⟨by decide, (move_total_characterization exFa [0] "a").2 99 (by decide)⟩

/-- C10: `null_closure` preserves duplicates from its input: duplicate-free
input yields duplicate-free output, and every input state keeps its exact
input multiplicity in the output, so a repeated input state stays repeated. -/
theorem nullClosure_duplicates (fa : FiniteAutomaton) (S : List Nat) :
    (S.Nodup → (null_closure fa S).Nodup) ∧
    (∀ x ∈ S, (null_closure fa S).count x = S.count x) :=
  ⟨fun h => null_closure_nodup h, fun _ hx => null_closure_count hx⟩

theorem nullClosure_duplicates_witness :
    (5 : Nat) ∈ ([5, 5] : List Nat) ∧
    (null_closure exFa0 [5, 5]).count 5 = ([5, 5] : List Nat).count 5 :=
  ⟨by decide, (nullClosure_duplicates exFa0 [5, 5]).2 5 (by decide)⟩

/-- C2: in the DFA returned by `to_dfa`, every (state, symbol) cell of the
transition dictionary holds at most one destination, because the driver calls
`add_transition` at most once per assigned id and alphabet symbol. -/
theorem toDfa_deterministic (fa : FiniteAutomaton) (hA : fa.alphabet.Nodup) :
    ∀ s sym, (destsOf (to_dfa fa).transitions s sym).length ≤ 1 := by
  intro s sym
  exact ((finalBuild_spec fa).2.2.2 hA).1 s sym

theorem toDfa_deterministic_witness :
    (["a"] : List String).Nodup ∧
    (destsOf (to_dfa exFa).transitions 1 "a").length ≤ 1 :=
  ⟨by decide, toDfa_deterministic exFa (by decide) 1 "a"⟩

/-- C3: a discovered DFA state id is in the output's final-state list iff its
corresponding NFA-state subset intersects the NFA's final-state set. -/
theorem toDfa_final_iff (fa : FiniteAutomaton) :
    ∀ p ∈ (finalBuild fa).dfa_states,
      (p.2 ∈ (to_dfa fa).final_states ↔ ∃ x ∈ p.1, x ∈ fa.final_states) := by
  intro p hp
  have hvnd : ((finalBuild fa).dfa_states.map Prod.snd).Nodup :=
    valsNodup (finalBuild_spec fa).2.1.2.1
  have hfin : (to_dfa fa).final_states
      = ((finalBuild fa).dfa_states.filter
          (fun q => q.1.any (fun x => decide (x ∈ fa.final_states)))).map
            Prod.snd := rfl
  rw [hfin]
  constructor
  · intro hmem
    obtain ⟨q, hq, hqe⟩ := List.mem_map.1 hmem
    rw [List.mem_filter] at hq
    have hqp : q = p := values_inj hvnd hq.1 hp hqe
    subst hqp
    have := hq.2
    simp only [List.any_eq_true, decide_eq_true_eq] at this
    exact this
  · intro hex
    refine List.mem_map.2 ⟨p, List.mem_filter.2 ⟨hp, ?_⟩, rfl⟩
    simp only [List.any_eq_true, decide_eq_true_eq]
    exact hex

theorem toDfa_final_iff_witness :
    (([2], 2) : List Nat × Nat) ∈ (finalBuild exFa).dfa_states ∧
    ((2 : Nat) ∈ (to_dfa exFa).final_states ↔
      ∃ x ∈ ([2] : List Nat), x ∈ exFa.final_states) :=
  ⟨by decide, toDfa_final_iff exFa ([2], 2) (by decide)⟩

/-- C5: ids are assigned in discovery order: the recorded ids are exactly
`1..N` in order of discovery, and the initial state's epsilon-closure is
mapped to id `1`. -/
theorem toDfa_state_ids (fa : FiniteAutomaton) :
    (finalBuild fa).dfa_states.map Prod.snd
      = List.range' 1 (finalBuild fa).dfa_states.length ∧
    lookupA (finalBuild fa).dfa_states (null_closure fa [fa.initial_state])
      = some 1 := by
  refine ⟨(finalBuild_spec fa).2.1.2.1, ?_⟩
  obtain ⟨ext, h1, -⟩ := (finalBuild_spec fa).2.2.1
  rw [h1]
  simp [lookupA]

/-- C4: the worklist loop terminates with an emptied queue, each discovered
subset is recorded exactly once (the canonical keys are pairwise distinct,
which is what guards against re-enqueueing), and for a well-formed NFA the
number of discovered DFA states is at most `2 ^ |NFA states|`. -/
theorem toDfa_termination_bound (fa : FiniteAutomaton) (h : WellFormed fa) :
    (finalBuild fa).unmarked = [] ∧
    ((finalBuild fa).dfa_states.map Prod.fst).Nodup ∧
    (finalBuild fa).dfa_states.length ≤ 2 ^ (nfaStates fa).card := by
  obtain ⟨hu, hI, ⟨ext, h1, h3⟩, -⟩ := finalBuild_spec fa
  refine ⟨hu, hI.1, ?_⟩
  have hkey : ∀ p ∈ (finalBuild fa).dfa_states, p.1.toFinset ⊆ nfaStates fa := by
    intro p hp
    rw [h1] at hp
    rcases List.mem_cons.1 hp with hph | hpe'
    · subst hph
      intro x hx
      rw [List.mem_toFinset] at hx
      rcases null_closure_mem_cases hx with hxi | hxd
      · rw [List.mem_singleton] at hxi
        rw [hxi]
        exact h.1
      · exact h.2 hxd
    · obtain ⟨s, hs, hse⟩ := Finset.mem_image.1 (h3 p hpe')
      intro x hx
      rw [List.mem_toFinset, ← hse, Finset.mem_sort] at hx
      exact h.2 (Finset.mem_powerset.1 hs hx)
  have hnd2 : (((finalBuild fa).dfa_states.map Prod.fst).map
      List.toFinset).Nodup := by
    refine List.Nodup.map_on ?_ hI.1
    intro x hx y hy hxy
    obtain ⟨px, hpx, hpxe⟩ := List.mem_map.1 hx
    obtain ⟨py, hpy, hpye⟩ := List.mem_map.1 hy
    have hcx := hI.2.2.1 px hpx
    have hcy := hI.2.2.1 py hpy
    rw [← hpxe, ← hpye] at hxy ⊢
    exact eq_of_sorted_nodup_toFinset_eq hcx.1 hcy.1 hcx.2 hcy.2 hxy
  have hsub2 : (((finalBuild fa).dfa_states.map Prod.fst).map
      List.toFinset).toFinset ⊆ (nfaStates fa).powerset := by
    intro a ha
    rw [List.mem_toFinset] at ha
    obtain ⟨k, hk, hke⟩ := List.mem_map.1 ha
    obtain ⟨p, hp, hpe⟩ := List.mem_map.1 hk
    rw [Finset.mem_powerset, ← hke, ← hpe]
    exact hkey p hp
  calc (finalBuild fa).dfa_states.length
      = (((finalBuild fa).dfa_states.map Prod.fst).map List.toFinset).length := by
        simp
    _ = (((finalBuild fa).dfa_states.map Prod.fst).map
          List.toFinset).toFinset.card := (List.toFinset_card_of_nodup hnd2).symm
    _ ≤ (nfaStates fa).powerset.card := Finset.card_le_card hsub2
    _ = 2 ^ (nfaStates fa).card := Finset.card_powerset _

theorem toDfa_termination_bound_witness :
    WellFormed exFa ∧ (finalBuild exFa).unmarked = [] ∧
    (finalBuild exFa).dfa_states.length ≤ 2 ^ (nfaStates exFa).card := by
  have hwf : WellFormed exFa := ⟨by decide, by decide⟩
  exact ⟨hwf, (toDfa_termination_bound exFa hwf).1,
    (toDfa_termination_bound exFa hwf).2.2⟩

/-- C9: if the alphabet is empty the constructed DFA consists of exactly one
discovered state — the initial epsilon-closure, with id 1 — the output has no
transitions, and state 1 is final iff the initial closure intersects the
NFA's final states. -/
theorem toDfa_empty_alphabet (fa : FiniteAutomaton) (h : fa.alphabet = []) :
    (finalBuild fa).dfa_states = [(null_closure fa [fa.initial_state], 1)] ∧
    (to_dfa fa).transitions = [] ∧
    ((1 : Nat) ∈ (to_dfa fa).final_states ↔
      ∃ x ∈ null_closure fa [fa.initial_state], x ∈ fa.final_states) ∧
    (to_dfa fa).initial_state = 1 := by
  have hms : markState fa (null_closure fa [fa.initial_state])
      { initBuild fa with unmarked := [] }
      = { initBuild fa with unmarked := [] } := by
    unfold markState
    rw [h]
    rfl
  have hstep : finalBuild fa = toDfaLoopF fa (2 ^ (allDests fa).card)
      (markState fa (null_closure fa [fa.initial_state])
        { initBuild fa with unmarked := [] }) := by
    rw [finalBuild, Nat.add_comm]
    rfl
  have hfb : finalBuild fa = { initBuild fa with unmarked := [] } := by
    rw [hstep, hms, toDfaLoopF_of_empty rfl]
  have hstates : (finalBuild fa).dfa_states
      = [(null_closure fa [fa.initial_state], 1)] := by
    rw [hfb]
    rfl
  have htrans : (to_dfa fa).transitions = [] := by
    show (finalBuild fa).dfa_trans = []
    rw [hfb]
    rfl
  refine ⟨hstates, htrans, ?_, rfl⟩
  have hfin : (to_dfa fa).final_states
      = ((finalBuild fa).dfa_states.filter
          (fun q => q.1.any (fun x => decide (x ∈ fa.final_states)))).map
            Prod.snd := rfl
  rw [hfin, hstates]
  by_cases hpred : ∃ x ∈ null_closure fa [fa.initial_state], x ∈ fa.final_states
  · have : ((null_closure fa [fa.initial_state]).any
        (fun x => decide (x ∈ fa.final_states))) = true := by
      simp only [List.any_eq_true, decide_eq_true_eq]
      exact hpred
    simp [List.filter, this, hpred]
  · have : ((null_closure fa [fa.initial_state]).any
        (fun x => decide (x ∈ fa.final_states))) = false := by
      simp only [List.any_eq_false, decide_eq_true_eq]
      intro x hx
      exact fun hc => hpred ⟨x, hx, hc⟩
    simp [List.filter, this, hpred]

theorem toDfa_empty_alphabet_witness :
    exFaE.alphabet = [] ∧ (to_dfa exFaE).transitions = [] ∧
    (finalBuild exFaE).dfa_states = [(null_closure exFaE [0], 1)] :=
  ⟨rfl, (toDfa_empty_alphabet exFaE rfl).2.1, (toDfa_empty_alphabet exFaE rfl).1⟩
